import Mathlib

/-!
Shallow embedding of the multi-endpoint failover request-execution core of
the schema-registry client (Rust), together with theorems checking the
natural-language specification against it.

Embedded source files:
  * `src/schema-registry/src/client/http_util.rs` (`exec_calls`, `parse_response`)
  * `src/src/client/http.rs` (`exec_http_calls`, `basic_auth`, `bearer_auth`)
  * `src/src/error.rs` (`HttpCallError`, `ConfigurationError`, `SchemaRegistryError`)
  * `src/schema-registry/src/client/config.rs` (`SchemaRegistryConfig` builders,
    `build_auth_headers`, `build_headers`, `build_http_client`)
  * `src/schema-registry/src/client/mod.rs` (`from_conf`, `get_subjects`,
    `post_new_subject_version`)

Asynchronous calls are modelled as pairs of a completion time (a `Nat`,
the instant at which the future resolves) and the value it resolves to.
The `futures::future::select_ok` combinator used by `exec_calls` is
embedded by its operational semantics: repeatedly take the
earliest-completing pending future (list order breaks ties, matching the
poll scan order); a success ends the race at once, an error removes the
future, and the error of the future whose removal empties the set is
returned.  `select_ok` asserts that its input is non-empty and panics
otherwise; the panic is modelled as `none`.
-/

namespace SchemaReg

/-- Rust `String::from(...)`-level bytes: a byte is a `Nat`, reduced mod 256
where it matters. -/
abbrev Byte := Nat

/-- A racing per-endpoint call: completion time paired with its result. -/
abbrev Call (ε α : Type) := Nat × Except ε α

/-- `Except.isOk`-style discriminator used by the race statements. -/
def exceptIsOk {ε α : Type} : Except ε α → Bool
  | .ok _ => true
  | .error _ => false

/-- Extract the earliest-completing call (first in list order on ties) and
return it with the remaining calls in their original order.  `none` iff the
list is empty.  This is the order in which `select_ok`'s poll loop observes
completions. -/
def extractEarliest {ε α : Type} : List (Call ε α) → Option (Call ε α × List (Call ε α))
  | [] => none
  | x :: xs =>
    match extractEarliest xs with
    | none => some (x, [])
    | some (y, ys) => if x.1 ≤ y.1 then some (x, xs) else some (y, x :: ys)

theorem extractEarliest_eq_none {ε α : Type} {l : List (Call ε α)} :
    extractEarliest l = none ↔ l = [] := by
  cases l with
  | nil => simp [extractEarliest]
  | cons x xs =>
    simp only [extractEarliest]
    constructor
    · intro h
      cases hxs : extractEarliest xs with
      | none => rw [hxs] at h; simp at h
      | some p => rw [hxs] at h; obtain ⟨y, ys⟩ := p; by_cases hle : x.1 ≤ y.1 <;> simp [hle] at h
    · intro h; exact absurd h (by simp)

/-- The extracted call sits at an explicit position: the input list splits
around it and the remainder is the input with that occurrence removed. -/
theorem extractEarliest_decomp {ε α : Type} {l : List (Call ε α)}
    {y : Call ε α} {ys : List (Call ε α)}
    (h : extractEarliest l = some (y, ys)) :
    ∃ l₁ l₂, l = l₁ ++ y :: l₂ ∧ ys = l₁ ++ l₂ := by
  induction l generalizing y ys with
  | nil => simp [extractEarliest] at h
  | cons x xs ih =>
    simp only [extractEarliest] at h
    cases hxs : extractEarliest xs with
    | none =>
      rw [hxs] at h
      simp only [Option.some.injEq, Prod.mk.injEq] at h
      obtain ⟨rfl, rfl⟩ := h
      have hnil : xs = [] := extractEarliest_eq_none.mp hxs
      exact ⟨[], [], by simp [hnil], rfl⟩
    | some p =>
      obtain ⟨y', ys'⟩ := p
      rw [hxs] at h
      by_cases hle : x.1 ≤ y'.1
      · simp only [hle, if_true, Option.some.injEq, Prod.mk.injEq] at h
        obtain ⟨rfl, rfl⟩ := h
        exact ⟨[], xs, rfl, rfl⟩
      · simp only [hle, if_false, Option.some.injEq, Prod.mk.injEq] at h
        obtain ⟨rfl, rfl⟩ := h
        obtain ⟨m₁, m₂, hm, hm'⟩ := ih hxs
        exact ⟨x :: m₁, m₂, by simp [hm], by simp [hm']⟩

/-- The extracted call completes no later than any call of the list. -/
theorem extractEarliest_min {ε α : Type} {l : List (Call ε α)}
    {y : Call ε α} {ys : List (Call ε α)}
    (h : extractEarliest l = some (y, ys)) :
    ∀ z ∈ l, y.1 ≤ z.1 := by
  induction l generalizing y ys with
  | nil => simp [extractEarliest] at h
  | cons x xs ih =>
    simp only [extractEarliest] at h
    cases hxs : extractEarliest xs with
    | none =>
      rw [hxs] at h
      simp only [Option.some.injEq, Prod.mk.injEq] at h
      obtain ⟨rfl, rfl⟩ := h
      have hnil : xs = [] := extractEarliest_eq_none.mp hxs
      subst hnil; intro z hz; simp at hz; subst hz; exact le_refl _
    | some p =>
      obtain ⟨y', ys'⟩ := p
      rw [hxs] at h
      by_cases hle : x.1 ≤ y'.1
      · simp only [hle, if_true, Option.some.injEq, Prod.mk.injEq] at h
        obtain ⟨rfl, rfl⟩ := h
        intro z hz
        rcases List.mem_cons.mp hz with rfl | hz
        · exact le_refl _
        · exact le_trans hle (ih hxs z hz)
      · simp only [hle, if_false, Option.some.injEq, Prod.mk.injEq] at h
        obtain ⟨rfl, rfl⟩ := h
        intro z hz
        rcases List.mem_cons.mp hz with rfl | hz
        · exact le_of_not_le hle
        · exact ih hxs z hz

theorem extractEarliest_length {ε α : Type} {l : List (Call ε α)}
    {y : Call ε α} {ys : List (Call ε α)}
    (h : extractEarliest l = some (y, ys)) :
    ys.length + 1 = l.length := by
  obtain ⟨l₁, l₂, hl, hys⟩ := extractEarliest_decomp h
  subst hl; subst hys; simp; omega

/-- Fuel-indexed race loop for `futures::future::select_ok`: the earliest
pending future resolves; a success wins at once (the still-pending futures
are handed back), an error removes the future and the race goes on; the
error emptying the set is returned.  The fuel is always `l.length` and
never runs out on the reachable paths. -/
def selectOkAux {ε α : Type} : Nat → List (Call ε α) → Option (Except ε (α × List (Call ε α)))
  | 0, _ => none
  | fuel + 1, l =>
    match extractEarliest l with
    | none => none
    | some (y, ys) =>
      match y.2 with
      | .ok v => some (.ok (v, ys))
      | .error e => if ys.isEmpty then some (.error e) else selectOkAux fuel ys

/-- `futures::future::select_ok` over the completion-time model.  `none`
models the `assert!` panic on an empty iterator. -/
def select_ok {ε α : Type} (l : List (Call ε α)) : Option (Except ε (α × List (Call ε α))) :=
  selectOkAux l.length l

/-- `src/schema-registry/src/client/http_util.rs`, `exec_calls`:
`select_ok` the calls, drop the remaining futures, surface the winning
value or the aggregated error. -/
def exec_calls {ε α : Type} (calls : List (Call ε α)) : Option (Except ε α) :=
  (select_ok calls).map fun r =>
    match r with
    | .ok (v, _remaining) => .ok v
    | .error e => .error e

/-- `src/src/client/http.rs`, `exec_http_calls`: byte-for-byte the same
body as `exec_calls`. -/
def exec_http_calls {ε α : Type} (calls : List (Call ε α)) : Option (Except ε α) :=
  exec_calls calls

theorem select_ok_step_ok {ε α : Type} {l : List (Call ε α)}
    {y : Call ε α} {ys : List (Call ε α)} {v : α}
    (h : extractEarliest l = some (y, ys)) (hy : y.2 = Except.ok v) :
    select_ok l = some (.ok (v, ys)) := by
  obtain ⟨ty, ry⟩ := y
  simp only at hy
  subst hy
  have hlen := extractEarliest_length h
  unfold select_ok
  rw [← hlen]
  simp [selectOkAux, h]

theorem select_ok_step_err_last {ε α : Type} {l : List (Call ε α)}
    {y : Call ε α} {e : ε}
    (h : extractEarliest l = some (y, [])) (hy : y.2 = Except.error e) :
    select_ok l = some (.error e) := by
  obtain ⟨ty, ry⟩ := y
  simp only at hy
  subst hy
  have hlen := extractEarliest_length h
  unfold select_ok
  rw [← hlen]
  simp [selectOkAux, h]

theorem select_ok_step_err_cont {ε α : Type} {l : List (Call ε α)}
    {y : Call ε α} {ys : List (Call ε α)} {e : ε}
    (h : extractEarliest l = some (y, ys)) (hy : y.2 = Except.error e)
    (hne : ys ≠ []) :
    select_ok l = select_ok ys := by
  obtain ⟨ty, ry⟩ := y
  simp only at hy
  subst hy
  have hlen := extractEarliest_length h
  unfold select_ok
  rw [← hlen]
  simp [selectOkAux, h, List.isEmpty_iff, hne]

/-- Pairwise-distinct completion times identify a call: two members of the
list completing at the same instant are the same pair. -/
theorem pairwise_time_unique {ε α : Type} {l : List (Call ε α)}
    (hd : l.Pairwise fun a b => a.1 ≠ b.1)
    {a b : Call ε α} (ha : a ∈ l) (hb : b ∈ l) (hab : a.1 = b.1) : a = b := by
  induction l with
  | nil => simp at ha
  | cons x xs ih =>
    have hx : ∀ z ∈ xs, x.1 ≠ z.1 := (List.pairwise_cons.mp hd).1
    have hxs : xs.Pairwise fun a b => a.1 ≠ b.1 := (List.pairwise_cons.mp hd).2
    rcases List.mem_cons.mp ha with rfl | ha2
    · rcases List.mem_cons.mp hb with rfl | hb2
      · rfl
      · exact absurd hab (hx b hb2)
    · rcases List.mem_cons.mp hb with rfl | hb2
      · exact absurd hab.symm (hx a ha2)
      · exact ih hxs ha2 hb2

/-- Removing the extracted occurrence keeps membership, keeps pairwise
distinctness, keeps every other member, and (under distinct times) no
remaining member shares the extracted completion time. -/
theorem extractEarliest_rest_facts {ε α : Type} {l : List (Call ε α)}
    {y : Call ε α} {ys : List (Call ε α)}
    (h : extractEarliest l = some (y, ys)) :
    (∀ z ∈ ys, z ∈ l) ∧
    (l.Pairwise (fun a b => a.1 ≠ b.1) → ys.Pairwise fun a b => a.1 ≠ b.1) ∧
    (∀ z ∈ l, z ≠ y → z ∈ ys) ∧
    (l.Pairwise (fun a b => a.1 ≠ b.1) → ∀ z ∈ ys, z.1 ≠ y.1) := by
  obtain ⟨l₁, l₂, hl, hys⟩ := extractEarliest_decomp h
  subst hl; subst hys
  refine ⟨?_, ?_, ?_, ?_⟩
  · intro z hz
    rcases List.mem_append.mp hz with hz | hz
    · exact List.mem_append.mpr (Or.inl hz)
    · exact List.mem_append.mpr (Or.inr (List.mem_cons_of_mem _ hz))
  · intro hd
    have hsub : (l₁ ++ l₂).Sublist (l₁ ++ y :: l₂) :=
      List.Sublist.append_left (List.sublist_cons_self y l₂) l₁
    exact hd.sublist hsub
  · intro z hz hzy
    rcases List.mem_append.mp hz with hz | hz
    · exact List.mem_append.mpr (Or.inl hz)
    · rcases List.mem_cons.mp hz with rfl | hz
      · exact absurd rfl hzy
      · exact List.mem_append.mpr (Or.inr hz)
  · intro hd z hz
    rw [List.pairwise_append] at hd
    obtain ⟨hd₁, hd₂, hcross⟩ := hd
    rcases List.mem_append.mp hz with hz | hz
    · exact hcross z hz y (List.mem_cons_self _ _)
    · exact fun he => (List.pairwise_cons.mp hd₂).1 z hz he.symm

theorem extractEarliest_self_mem {ε α : Type} {l : List (Call ε α)}
    {y : Call ε α} {ys : List (Call ε α)}
    (h : extractEarliest l = some (y, ys)) : y ∈ l := by
  obtain ⟨l₁, l₂, hl, _⟩ := extractEarliest_decomp h
  subst hl; exact List.mem_append.mpr (Or.inr (List.mem_cons_self _ _))

/-- Race resolution, success side: if the list holds a success and `(t, v)`
is the success completing earliest, `select_ok` resolves to `v` together
with some set of still-pending futures.  Completion times are assumed
pairwise distinct so that "earliest to complete" is well-defined. -/
theorem select_ok_earliest_success {ε α : Type} :
    ∀ (n : Nat) (calls : List (Call ε α)), calls.length ≤ n →
    ∀ (t : Nat) (v : α),
    (t, Except.ok v) ∈ calls →
    calls.Pairwise (fun a b => a.1 ≠ b.1) →
    (∀ c ∈ calls, exceptIsOk c.2 = true → t ≤ c.1) →
    ∃ rem, select_ok calls = some (.ok (v, rem)) := by
  intro n
  induction n with
  | zero =>
    intro calls hlen t v hmem _ _
    have : calls = [] := List.length_eq_zero.mp (Nat.le_zero.mp hlen)
    subst this; simp at hmem
  | succ n ih =>
    intro calls hlen t v hmem hd hmin
    have hne : calls ≠ [] := by intro h; subst h; simp at hmem
    cases hext : extractEarliest calls with
    | none => exact absurd (extractEarliest_eq_none.mp hext) hne
    | some p =>
      obtain ⟨y, ys⟩ := p
      obtain ⟨hsub, hpair, hkeep, hne_time⟩ := extractEarliest_rest_facts hext
      have hymem : y ∈ calls := extractEarliest_self_mem hext
      cases hy2 : y.2 with
      | ok w =>
        have hle₁ : y.1 ≤ t := extractEarliest_min hext _ hmem
        have hle₂ : t ≤ y.1 := hmin y hymem (by simp [exceptIsOk, hy2])
        have hyeq : y = (t, Except.ok v) :=
          pairwise_time_unique hd hymem hmem (le_antisymm hle₁ hle₂)
        exact ⟨ys, select_ok_step_ok hext (by rw [hyeq])⟩
      | error e =>
        have hyne : y ≠ (t, Except.ok v) := by
          intro h; rw [h] at hy2; simp at hy2
        have hmem' : (t, Except.ok v) ∈ ys := hkeep _ hmem (fun h => hyne h.symm)
        have hysne : ys ≠ [] := by intro h; subst h; simp at hmem'
        have hstep : select_ok calls = select_ok ys :=
          select_ok_step_err_cont hext hy2 hysne
        have hlen' : ys.length ≤ n := by
          have := extractEarliest_length hext; omega
        obtain ⟨rem, hrem⟩ :=
          ih ys hlen' t v hmem' (hpair hd) (fun c hc h => hmin c (hsub c hc) h)
        exact ⟨rem, hstep.trans hrem⟩

/-- Race resolution, all-fail side: if every call fails and `(t, e)` is the
call completing last, `select_ok` resolves to the error `e`. -/
theorem select_ok_last_error {ε α : Type} :
    ∀ (n : Nat) (calls : List (Call ε α)), calls.length ≤ n →
    ∀ (t : Nat) (e : ε),
    (t, Except.error e) ∈ calls →
    calls.Pairwise (fun a b => a.1 ≠ b.1) →
    (∀ c ∈ calls, exceptIsOk c.2 = false) →
    (∀ c ∈ calls, c.1 ≤ t) →
    select_ok calls = some (.error e) := by
  intro n
  induction n with
  | zero =>
    intro calls hlen t e hmem _ _ _
    have : calls = [] := List.length_eq_zero.mp (Nat.le_zero.mp hlen)
    subst this; simp at hmem
  | succ n ih =>
    intro calls hlen t e hmem hd hall hmax
    cases hext : extractEarliest calls with
    | none =>
      exact absurd (extractEarliest_eq_none.mp hext) (by intro h; subst h; simp at hmem)
    | some p =>
      obtain ⟨y, ys⟩ := p
      obtain ⟨hsub, hpair, hkeep, hne_time⟩ := extractEarliest_rest_facts hext
      have hymem : y ∈ calls := extractEarliest_self_mem hext
      cases hy2 : y.2 with
      | ok w =>
        have := hall y hymem
        rw [hy2] at this; simp [exceptIsOk] at this
      | error e' =>
        by_cases hys : ys = []
        · subst hys
          obtain ⟨l₁, l₂, hl, hnil⟩ := extractEarliest_decomp hext
          have hl₁ : l₁ = [] := by
            cases l₁ with
            | nil => rfl
            | cons a as => simp at hnil
          have hl₂ : l₂ = [] := by
            cases l₂ with
            | nil => rfl
            | cons a as => rw [hl₁] at hnil; simp at hnil
          rw [hl₁, hl₂] at hl
          simp only [List.nil_append] at hl
          rw [hl] at hmem
          have hyeq : y = (t, Except.error e) := by
            rcases List.mem_cons.mp hmem with h | h
            · exact h.symm
            · simp at h
          rw [hyeq] at hext
          exact select_ok_step_err_last hext rfl
        · have hyne : y ≠ (t, Except.error e) := by
            intro heq
            obtain ⟨z, hz⟩ := List.exists_mem_of_ne_nil ys hys
            have hz₁ : z.1 ≤ t := hmax z (hsub z hz)
            have hz₂ : y.1 ≤ z.1 := extractEarliest_min hext z (hsub z hz)
            have hzt : z.1 = y.1 := by rw [heq] at hz₂ ⊢; simp at hz₂ ⊢; omega
            exact hne_time hd z hz hzt
          have hmem' : (t, Except.error e) ∈ ys := hkeep _ hmem (fun h => hyne h.symm)
          have hstep : select_ok calls = select_ok ys :=
            select_ok_step_err_cont hext hy2 hys
          have hlen' : ys.length ≤ n := by
            have := extractEarliest_length hext; omega
          rw [hstep]
          exact ih ys hlen' t e hmem' (hpair hd)
            (fun c hc => hall c (hsub c hc)) (fun c hc => hmax c (hsub c hc))

/-- C1: for every non-empty list of per-endpoint calls (non-emptiness is
implied by the success being a member), if at least one call completes
successfully, `exec_calls` returns the value of the call that was earliest
to complete successfully, as the single outcome observed by the caller;
every other call's result is dropped.  Completion times are taken pairwise
distinct so that "earliest to complete" is well-defined. -/
theorem exec_calls_returns_earliest_success {ε α : Type}
    (calls : List (Call ε α)) (t : Nat) (v : α)
    (hmem : (t, Except.ok v) ∈ calls)
    (hdist : calls.Pairwise fun a b => a.1 ≠ b.1)
    (hmin : ∀ c ∈ calls, exceptIsOk c.2 = true → t ≤ c.1) :
    exec_calls calls = some (Except.ok v) := by
  obtain ⟨rem, hrem⟩ :=
    select_ok_earliest_success calls.length calls (le_refl _) t v hmem hdist hmin
  simp [exec_calls, hrem]

/-- C1 witness: the spec's race scenario, E1 succeeding at t=50 and E2 at
t=10; the call returns E2's value. -/
theorem exec_calls_returns_earliest_success_witness :
    exec_calls [(50, (Except.ok 1 : Except String Nat)), (10, Except.ok 2)] =
      some (Except.ok 2) :=
  exec_calls_returns_earliest_success _ 10 2 (by simp) (by decide) (by decide)

/-- C2: if every per-endpoint call completes with an error, `exec_calls`
returns the error of the call that was last (temporally) to complete;
earlier errors are discarded.  Completion times are taken pairwise distinct
so that "last to complete" is well-defined. -/
theorem exec_calls_returns_last_error {ε α : Type}
    (calls : List (Call ε α)) (t : Nat) (e : ε)
    (hmem : (t, Except.error e) ∈ calls)
    (hdist : calls.Pairwise fun a b => a.1 ≠ b.1)
    (hall : ∀ c ∈ calls, exceptIsOk c.2 = false)
    (hmax : ∀ c ∈ calls, c.1 ≤ t) :
    exec_calls calls = some (Except.error e) := by
  have h := select_ok_last_error calls.length calls (le_refl _) t e hmem hdist hall hmax
  simp [exec_calls, h]

/-- C2 witness: the spec's all-fail scenario, E1 failing at t=10 and E2 at
t=50; the reported error is E2's. -/
theorem exec_calls_returns_last_error_witness :
    exec_calls [(10, (Except.error "E1" : Except String Nat)), (50, Except.error "E2")] =
      some (Except.error "E2") :=
  exec_calls_returns_last_error _ 50 "E2" (by simp) (by decide) (by decide) (by decide)

/-! ## Errors (`src/src/error.rs`)

Wrapped foreign error sources (`std::io::Error`, `serde_json::Error`,
`reqwest::Error`) are modelled as strings. -/

/-- `ConfigurationError`. -/
inductive ConfigurationError where
  | InvalidHeaderName (source : String)
  | InvalidHeaderValue (source : String)
  | Io (source : String)
  | Proxy (source : String)
deriving DecidableEq

/-- `HttpCallError`: decode failure, upstream failure, transport failure —
three distinct constructors. -/
inductive HttpCallError where
  | JsonParse (body : String) (target : String) (source : String)
  | UpstreamError (url : String) (status : Nat) (body : String)
  | Unexpected (source : String)
deriving DecidableEq

/-- `SchemaRegistryError`. -/
inductive SchemaRegistryError where
  | Configuration (source : ConfigurationError)
  | HttpCall (source : HttpCallError)
  | InvalidSchemaType (message : String)
  | InvalidCompatibilityLevel (message : String)
  | Other (message : String)
deriving DecidableEq

/-! ## UTF-8 and base64 byte-level helpers -/

/-- UTF-8 encoding of one scalar value (Rust `str` bytes). -/
def charUtf8 (c : Char) : List Byte :=
  let n := c.toNat
  if n < 0x80 then [n]
  else if n < 0x800 then [0xC0 + n / 64, 0x80 + n % 64]
  else if n < 0x10000 then [0xE0 + n / 4096, 0x80 + n / 64 % 64, 0x80 + n % 64]
  else [0xF0 + n / 262144, 0x80 + n / 4096 % 64, 0x80 + n / 64 % 64, 0x80 + n % 64]

/-- The UTF-8 bytes of a string (Rust `String::as_bytes`). -/
def strUtf8 (s : String) : List Byte := (s.data.map charUtf8).flatten

/-- The standard base64 alphabet (`base64::engine::general_purpose::STANDARD`). -/
def base64Alphabet : List Char :=
  "ABCDEFGHIJKLMNOPQRSTUVWXYZabcdefghijklmnopqrstuvwxyz0123456789+/".data

/-- Digit-to-character table of the standard base64 engine. -/
def base64Char (n : Nat) : Char := base64Alphabet.getD n '='

/-- Standard base64 with padding, three input bytes per four output
characters, as produced by `EncoderWriter` once flushed on drop. -/
def base64Encode : List Byte → List Char
  | [] => []
  | [a] =>
    [base64Char (a % 256 / 4), base64Char (a % 256 % 4 * 16), '=', '=']
  | [a, b] =>
    [base64Char (a % 256 / 4), base64Char (a % 256 % 4 * 16 + b % 256 / 16),
     base64Char (b % 256 % 16 * 4), '=']
  | a :: b :: c :: rest =>
    base64Char (a % 256 / 4) :: base64Char (a % 256 % 4 * 16 + b % 256 / 16) ::
      base64Char (b % 256 % 16 * 4 + c % 256 / 64) :: base64Char (c % 256 % 64) ::
      base64Encode rest

/-! ## Header construction (`http` crate model,
`src/schema-registry/src/client/config.rs`) -/

/-- `http::HeaderValue` byte validity: horizontal tab, or any byte that is
not a control character and not DEL. -/
def isValidHeaderValueByte (b : Byte) : Bool := b == 9 || (32 ≤ b && b ≠ 127)

/-- `HeaderValue::from_bytes`.  The header value itself is its byte string;
`set_sensitive` only toggles a debug-printing flag and is not modelled. -/
def headerValueFromBytes (bs : List Byte) : Except ConfigurationError (List Byte) :=
  if bs.all isValidHeaderValueByte then .ok bs
  else .error (.InvalidHeaderValue "failed to parse header value")

/-- `HeaderValue::from_str`: validates the UTF-8 bytes of the string. -/
def headerValueFromStr (s : String) : Except ConfigurationError (List Byte) :=
  headerValueFromBytes (strUtf8 s)

/-- `http::header::AUTHORIZATION`. -/
def authorizationHeaderName : String := "authorization"

/-- `http::HeaderName` byte validity (lower-case form): digits, lower-case
letters and the token punctuation accepted by the crate's name table. -/
def isHeaderNameByte (b : Byte) : Bool :=
  (48 ≤ b && b ≤ 57) || (97 ≤ b && b ≤ 122) ||
  b == 33 || b == 35 || b == 36 || b == 37 || b == 38 || b == 39 || b == 42 ||
  b == 43 || b == 45 || b == 46 || b == 94 || b == 95 || b == 96 || b == 124 ||
  b == 126

/-- `HeaderName::from_str`: upper-case ASCII is normalised to lower case,
every byte must then be a valid token byte. -/
def headerNameFromStr (s : String) : Except ConfigurationError String :=
  let lowered := String.mk (s.data.map Char.toLower)
  if (strUtf8 lowered).all isHeaderNameByte then .ok lowered
  else .error (.InvalidHeaderName "invalid HTTP header name")

/-- `bearer_auth` (`config.rs` / `http.rs`): the `authorization` header with
value `Bearer {token}`. -/
def bearer_auth (token : String) : Except ConfigurationError (String × List Byte) :=
  (headerValueFromStr ("Bearer " ++ token)).map fun v => (authorizationHeaderName, v)

/-- `basic_auth` (`config.rs` / `http.rs`): a `Basic ` prefix, then the
streaming base64 encoder fed the username, one colon, and the password when
present; the finished buffer becomes the `authorization` header value. -/
def basic_auth (username : String) (password : Option String) :
    Except ConfigurationError (String × List Byte) :=
  let input := strUtf8 username ++ [58] ++
    (match password with
     | some p => strUtf8 p
     | none => [])
  let buf := strUtf8 "Basic " ++ (base64Encode input).map Char.toNat
  (headerValueFromBytes buf).map fun v => (authorizationHeaderName, v)

/-! ## Configuration (`src/schema-registry/src/client/config.rs`) -/

/-- `Authentication`. -/
inductive Authentication where
  | Bearer (token : String)
  | Basic (username : String) (password : Option String)
deriving DecidableEq

/-- `SchemaRegistryConfig`.  The `headers` `HashMap` is modelled as an
association list. -/
structure SchemaRegistryConfig where
  urls : List String
  authentication : Option Authentication
  proxy : Option String
  headers : Option (List (String × String))
deriving DecidableEq

/-- `SchemaRegistryConfig::new` / `Default`. -/
def SchemaRegistryConfig.new : SchemaRegistryConfig :=
  { urls := [], authentication := none, proxy := none, headers := none }

/-- Builder `SchemaRegistryConfig::url`: pushes one URL. -/
def SchemaRegistryConfig.url (c : SchemaRegistryConfig) (u : String) : SchemaRegistryConfig :=
  { c with urls := c.urls ++ [u] }

/-- Builder `SchemaRegistryConfig::basic_auth`.  When an authentication is
already set a warning is logged and it is overwritten; when the username is
`None` a warning is logged and the configuration is returned unchanged.
The warnings are the only side effects and are not modelled. -/
def SchemaRegistryConfig.basic_auth (c : SchemaRegistryConfig)
    (username password : Option String) : SchemaRegistryConfig :=
  match username with
  | none => c
  | some u => { c with authentication := some (.Basic u password) }

/-- Builder `SchemaRegistryConfig::bearer_auth`: same overwrite-with-warning
policy as `basic_auth`. -/
def SchemaRegistryConfig.bearer_auth (c : SchemaRegistryConfig)
    (token : Option String) : SchemaRegistryConfig :=
  match token with
  | none => c
  | some t => { c with authentication := some (.Bearer t) }

/-- Builder `SchemaRegistryConfig::proxy`. -/
def SchemaRegistryConfig.proxy_set (c : SchemaRegistryConfig)
    (proxy : Option String) : SchemaRegistryConfig :=
  { c with proxy := proxy }

/-- Builder `SchemaRegistryConfig::headers`. -/
def SchemaRegistryConfig.headers_set (c : SchemaRegistryConfig)
    (headers : List (String × String)) : SchemaRegistryConfig :=
  { c with headers := some headers }

/-- `build_auth_headers`: dispatch on the authentication variant. -/
def build_auth_headers (auth : Authentication) :
    Except ConfigurationError (String × List Byte) :=
  match auth with
  | .Bearer token => bearer_auth token
  | .Basic username password => basic_auth username password

/-- `http::HeaderMap::insert`: replaces any value stored under the name. -/
def headerMapInsert (m : List (String × List Byte)) (k : String) (v : List Byte) :
    List (String × List Byte) :=
  (m.filter fun kv => !(kv.1 == k)) ++ [(k, v)]

/-- `build_headers`: parse every configured name/value pair into a header
map, failing on the first invalid one. -/
def build_headers (headers : List (String × String)) :
    Except ConfigurationError (List (String × List Byte)) :=
  headers.foldlM
    (fun m kv => do
      let name ← headerNameFromStr kv.1
      let value ← headerValueFromStr kv.2
      pure (headerMapInsert m name value))
    []

/-- `build_proxy` delegates to the external URL parser of reqwest
`Proxy::all`; abstracted here as requiring a scheme separator.  No claim
depends on proxy parsing. -/
def build_proxy (proxy : String) : Except ConfigurationError String :=
  if (proxy.splitOn "://").length ≥ 2 then .ok proxy
  else .error (.Proxy "invalid proxy url")

/-- The reqwest client as far as this layer configures it. -/
structure HttpClient where
  defaultHeaders : List (String × List Byte)
  proxy : Option String
deriving DecidableEq

/-- `build_http_client`: optional static headers, then the authentication
header inserted over them, then the optional proxy.  (`Client::builder()
.build()` itself can only fail on TLS backend initialisation, which does
not depend on the configuration and is not modelled.) -/
def build_http_client (conf : SchemaRegistryConfig) : Except ConfigurationError HttpClient := do
  let base ←
    match conf.headers with
    | some hs => build_headers hs
    | none => pure []
  let withAuth ←
    match conf.authentication with
    | some auth => do
        let nv ← build_auth_headers auth
        pure (headerMapInsert base nv.1 nv.2)
    | none => pure base
  let proxy ←
    match conf.proxy with
    | some p => (build_proxy p).map some
    | none => pure none
  pure { defaultHeaders := withAuth, proxy := proxy }

/-! ## Client construction (`src/schema-registry/src/client/mod.rs`) -/

/-- `SchemaRegistryClient`: the endpoint list fixed at construction and the
shared reqwest client. -/
structure SchemaRegistryClient where
  urls : List String
  http : HttpClient
deriving DecidableEq

/-- `SchemaRegistryClient::from_conf`: copies the configured URL list —
with no emptiness check — and builds the HTTP client. -/
def from_conf (conf : SchemaRegistryConfig) :
    Except SchemaRegistryError SchemaRegistryClient :=
  match build_http_client conf with
  | .error e => .error (.Configuration e)
  | .ok http => .ok { urls := conf.urls, http := http }

/-! ## Response decoding (`src/schema-registry/src/client/http_util.rs`,
`parse_response`) -/

/-- A UTF-8 continuation byte. -/
def isUtf8Cont (b : Byte) : Bool := 128 ≤ b && b ≤ 191

/-- U+FFFD. -/
def replacementChar : Char := Char.ofNat 0xFFFD

/-- `String::from_utf8_lossy` body: strict UTF-8 decoding where every
maximal invalid subpart becomes one U+FFFD, resuming at the offending
byte. -/
def utf8DecodeLossy : List Byte → List Char
  | [] => []
  | b :: rest =>
    if b < 128 then Char.ofNat b :: utf8DecodeLossy rest
    else if b < 194 then replacementChar :: utf8DecodeLossy rest
    else if b < 224 then
      match rest with
      | [] => [replacementChar]
      | c1 :: rest1 =>
        if isUtf8Cont c1 then
          Char.ofNat ((b - 192) * 64 + (c1 - 128)) :: utf8DecodeLossy rest1
        else replacementChar :: utf8DecodeLossy (c1 :: rest1)
    else if b < 240 then
      match rest with
      | [] => [replacementChar]
      | c1 :: rest1 =>
        let c1ok :=
          if b == 224 then 160 ≤ c1 && c1 ≤ 191
          else if b == 237 then 128 ≤ c1 && c1 ≤ 159
          else isUtf8Cont c1
        if c1ok then
          match rest1 with
          | [] => [replacementChar]
          | c2 :: rest2 =>
            if isUtf8Cont c2 then
              Char.ofNat ((b - 224) * 4096 + (c1 - 128) * 64 + (c2 - 128)) ::
                utf8DecodeLossy rest2
            else replacementChar :: utf8DecodeLossy (c2 :: rest2)
        else replacementChar :: utf8DecodeLossy (c1 :: rest1)
    else if b < 245 then
      match rest with
      | [] => [replacementChar]
      | c1 :: rest1 =>
        let c1ok :=
          if b == 240 then 144 ≤ c1 && c1 ≤ 191
          else if b == 244 then 128 ≤ c1 && c1 ≤ 143
          else isUtf8Cont c1
        if c1ok then
          match rest1 with
          | [] => [replacementChar]
          | c2 :: rest2 =>
            if isUtf8Cont c2 then
              match rest2 with
              | [] => [replacementChar]
              | c3 :: rest3 =>
                if isUtf8Cont c3 then
                  Char.ofNat
                      ((b - 240) * 262144 + (c1 - 128) * 4096 + (c2 - 128) * 64 + (c3 - 128)) ::
                    utf8DecodeLossy rest3
                else replacementChar :: utf8DecodeLossy (c3 :: rest3)
            else replacementChar :: utf8DecodeLossy (c2 :: rest2)
        else replacementChar :: utf8DecodeLossy (c1 :: rest1)
    else replacementChar :: utf8DecodeLossy rest
termination_by l => l.length
decreasing_by all_goals simp_arith

/-- `String::from_utf8_lossy` followed by `String::from` / `to_string`. -/
def utf8Lossy (bs : List Byte) : String := String.mk (utf8DecodeLossy bs)

/-- One HTTP response as `parse_response` receives it: status, request URL,
and the body bytes — or the transport error raised while reading them
(`response.bytes().await?`). -/
structure Response where
  status : Nat
  url : String
  body : Except String (List Byte)

/-- `parse_response::<T>`: 2xx bodies are decoded into `T` (a failed decode
becomes `JsonParse` with the lossy body text, the target type name and the
decoder error); any other status becomes `UpstreamError` with the request
URL, the status and the lossy body text.  The statically chosen
`serde_json::from_slice::<T>` is the `decode` parameter, and
`std::any::type_name::<T>()` the `target` parameter. -/
def parse_response {T : Type} (decode : List Byte → Except String T) (target : String)
    (response : Response) : Except HttpCallError T :=
  let status := response.status
  let host := response.url
  match response.body with
  | .error e => .error (.Unexpected e)
  | .ok bytes =>
    if 200 ≤ status ∧ status ≤ 299 then
      match decode bytes with
      | .ok parsed => .ok parsed
      | .error source => .error (.JsonParse (utf8Lossy bytes) target source)
    else .error (.UpstreamError host status (utf8Lossy bytes))

/-! ## Typed operation facade (`src/schema-registry/src/client/mod.rs` and
`src/src/client/implementation/subject.rs`) -/

/-- Rust `bool` rendered by `Display` into a format string. -/
def boolLit : Bool → String
  | true => "true"
  | false => "false"

/-- `VND_SCHEMA_REGISTRY_V1_JSON`. -/
def VND_SCHEMA_REGISTRY_V1_JSON : String := "application/vnd.schemaregistry.v1+json"

inductive HttpMethod where
  | GET
  | POST
  | PUT
  | DELETE
deriving DecidableEq

/-- The per-endpoint request template an operation replicates: method, full
URL and the `Accept` header. -/
structure RequestTemplate where
  method : HttpMethod
  url : String
  accept : String
deriving DecidableEq

/-- `get_subjects` call building: the `for url in self.urls.iter()` loop
pushing one GET call per endpoint onto the vector. -/
def get_subjects_calls (urls : List String) (deleted : Bool) : List RequestTemplate :=
  urls.foldl
    (fun acc url =>
      acc ++ [{ method := .GET,
                url := url ++ "/subjects?deleted=" ++ boolLit deleted,
                accept := VND_SCHEMA_REGISTRY_V1_JSON }])
    []

/-- `post_new_subject_version` call building
(`format!("{}/subjects/{}/versions?={}", url, subject, normalize)`): one
POST call per endpoint. -/
def post_new_subject_version_calls (urls : List String) (subject : String)
    (normalize : Bool) : List RequestTemplate :=
  urls.foldl
    (fun acc url =>
      acc ++ [{ method := .POST,
                url := url ++ "/subjects/" ++ subject ++ "/versions?=" ++ boolLit normalize,
                accept := VND_SCHEMA_REGISTRY_V1_JSON }])
    []

/-- `get_subjects` at the client level: the receiver is `&self`, so the
operation returns the calls it built and leaves the client as it was. -/
def get_subjects (c : SchemaRegistryClient) (deleted : Bool) :
    List RequestTemplate × SchemaRegistryClient :=
  (get_subjects_calls c.urls deleted, c)

/-- `post_new_subject_version` at the client level, same shape. -/
def post_new_subject_version (c : SchemaRegistryClient) (subject : String)
    (normalize : Bool) : List RequestTemplate × SchemaRegistryClient :=
  (post_new_subject_version_calls c.urls subject normalize, c)

/-- C3 counterexample: `from_conf` on a configuration with zero endpoint
URLs does not fail — it returns a client whose endpoint list is empty, so
the claim that construction with zero endpoints fails with an error is
false on the code. -/
theorem from_conf_empty_urls_succeeds :
    from_conf { urls := [], authentication := none, proxy := none, headers := none }
      = .ok { urls := [], http := { defaultHeaders := [], proxy := none } } := rfl

/-- C3 amended: constructing a client with zero endpoint URLs succeeds (no
emptiness check happens at construction); the failure is at invocation
time: an operation on such a client builds an empty call vector and the
executor applied to an empty call list fails immediately — `select_ok`'s
non-empty assertion panics, modelled as `none` — rather than waiting
forever. -/
theorem empty_endpoint_invocation_fails_fast :
    from_conf { urls := [], authentication := none, proxy := none, headers := none }
        = .ok { urls := [], http := { defaultHeaders := [], proxy := none } } ∧
    get_subjects_calls [] true = [] ∧
    get_subjects_calls [] false = [] ∧
    exec_calls ([] : List (Call HttpCallError (List String))) = none :=
  ⟨rfl, rfl, rfl, rfl⟩

/-- C4, evaluated at the failing input: the register-schema operation
formats `/subjects/{subject}/versions?={bool}` — the `normalize` query
parameter name is dropped — instead of the documented
`/subjects/{subject}/versions?normalize={bool}`. -/
theorem post_new_subject_version_drops_query_name :
    (post_new_subject_version_calls ["http://sr"] "my-subject" true).map
        (fun c => c.url)
      = ["http://sr/subjects/my-subject/versions?=true"] ∧
    (post_new_subject_version_calls ["http://sr"] "my-subject" false).map
        (fun c => c.url)
      = ["http://sr/subjects/my-subject/versions?=false"] ∧
    "http://sr/subjects/my-subject/versions?=true"
      ≠ "http://sr/subjects/my-subject/versions?normalize=true" := by
  refine ⟨rfl, rfl, by decide⟩

/-- C8: configuring authentication is last-write-wins — with both
credentials present, `bearer_auth` then `basic_auth` (and the reverse)
equals applying only the later call, and either builder changes nothing
but the `authentication` field (the overwrite warning is a log line with
no further effect). -/
theorem auth_config_last_write_wins (c : SchemaRegistryConfig) (t u : String)
    (p : Option String) :
    (c.bearer_auth (some t)).basic_auth (some u) p = c.basic_auth (some u) p ∧
    (c.basic_auth (some u) p).bearer_auth (some t) = c.bearer_auth (some t) ∧
    (c.basic_auth (some u) p).urls = c.urls ∧
    (c.basic_auth (some u) p).proxy = c.proxy ∧
    (c.basic_auth (some u) p).headers = c.headers ∧
    (c.bearer_auth (some t)).urls = c.urls ∧
    (c.bearer_auth (some t)).proxy = c.proxy ∧
    (c.bearer_auth (some t)).headers = c.headers := by
  obtain ⟨urls, auth, proxy, headers⟩ := c
  simp [SchemaRegistryConfig.basic_auth, SchemaRegistryConfig.bearer_auth]

/-- One `foldl`-push loop builds the same list as a `map`. -/
theorem foldl_push_eq_map {A B : Type} (f : A → B) (l : List A) (acc : List B) :
    l.foldl (fun acc a => acc ++ [f a]) acc = acc ++ l.map f := by
  induction l generalizing acc with
  | nil => simp
  | cons x xs ih => simp [List.foldl_cons, ih]

theorem get_subjects_calls_eq_map (urls : List String) (deleted : Bool) :
    get_subjects_calls urls deleted =
      urls.map fun url =>
        { method := .GET,
          url := url ++ "/subjects?deleted=" ++ boolLit deleted,
          accept := VND_SCHEMA_REGISTRY_V1_JSON } := by
  unfold get_subjects_calls
  rw [foldl_push_eq_map]
  simp

theorem post_new_subject_version_calls_eq_map (urls : List String) (subject : String)
    (normalize : Bool) :
    post_new_subject_version_calls urls subject normalize =
      urls.map fun url =>
        { method := .POST,
          url := url ++ "/subjects/" ++ subject ++ "/versions?=" ++ boolLit normalize,
          accept := VND_SCHEMA_REGISTRY_V1_JSON } := by
  unfold post_new_subject_version_calls
  rw [foldl_push_eq_map]
  simp

/-- C9: a client operation builds exactly one HTTP call per configured
endpoint URL — the call list has the length of the URL list and the `i`-th
call is addressed to the `i`-th URL — and leaves the client, in particular
its endpoint list, unchanged.  Stated for the cited `get_subjects` and for
`post_new_subject_version`, the two operations embedded here. -/
theorem ops_build_one_call_per_endpoint (c : SchemaRegistryClient) (deleted : Bool)
    (subject : String) (normalize : Bool) :
    ((get_subjects c deleted).1.length = c.urls.length) ∧
    (∀ i : Nat, ((get_subjects c deleted).1[i]?).map (fun r => r.url)
      = (c.urls[i]?).map fun u => u ++ "/subjects?deleted=" ++ boolLit deleted) ∧
    ((get_subjects c deleted).2 = c) ∧
    ((post_new_subject_version c subject normalize).1.length = c.urls.length) ∧
    (∀ i : Nat,
      ((post_new_subject_version c subject normalize).1[i]?).map (fun r => r.url)
      = (c.urls[i]?).map fun u =>
          u ++ "/subjects/" ++ subject ++ "/versions?=" ++ boolLit normalize) ∧
    ((post_new_subject_version c subject normalize).2 = c) := by
  refine ⟨?_, ?_, rfl, ?_, ?_, rfl⟩
  · simp [get_subjects, get_subjects_calls_eq_map]
  · intro i
    simp only [get_subjects, get_subjects_calls_eq_map, List.getElem?_map]
    cases c.urls[i]? <;> rfl
  · simp [post_new_subject_version, post_new_subject_version_calls_eq_map]
  · intro i
    simp only [post_new_subject_version, post_new_subject_version_calls_eq_map,
      List.getElem?_map]
    cases c.urls[i]? <;> rfl

/-- C5: on a response with a 2xx status whose body was read as `bs`, a
successful JSON decode into the expected type is returned as the value,
and a failed decode is returned as `JsonParse` carrying the raw body
lossily decoded as UTF-8, the name of the target type, and the underlying
parse error. -/
theorem parse_response_2xx_decodes {T : Type} (decode : List Byte → Except String T)
    (target : String) (r : Response) (bs : List Byte)
    (hb : r.body = .ok bs) (h2 : 200 ≤ r.status) (h3 : r.status ≤ 299) :
    (∀ v, decode bs = .ok v → parse_response decode target r = .ok v) ∧
    (∀ e, decode bs = .error e →
      parse_response decode target r
        = .error (.JsonParse (utf8Lossy bs) target e)) := by
  constructor <;> intro x hx <;> simp [parse_response, hb, h2, h3, hx]

/-- C5 witness: a 200 response whose body decodes, and one whose body does
not. -/
theorem parse_response_2xx_decodes_witness :
    parse_response
        (fun bs => if bs = [49] then (Except.ok 1 : Except String Nat) else .error "bad")
        "u32" { status := 200, url := "http://sr", body := .ok [49] } = .ok 1 ∧
    parse_response
        (fun bs => if bs = [49] then (Except.ok 1 : Except String Nat) else .error "bad")
        "u32" { status := 204, url := "http://sr", body := .ok [104] }
      = .error (.JsonParse (utf8Lossy [104]) "u32" "bad") :=
  ⟨(parse_response_2xx_decodes _ "u32" _ [49] rfl (by decide) (by decide)).1 1 rfl,
   (parse_response_2xx_decodes _ "u32" _ [104] rfl (by decide) (by decide)).2 "bad" rfl⟩

/-- C6: on a response with a status outside 200–299, `parse_response`
returns `UpstreamError` with the request URL, the numeric status and the
lossily decoded raw body; the result is the same whatever decoder the
expected type supplies (no JSON decode is attempted); and the decode-error
and upstream-error kinds are distinct constructors. -/
theorem parse_response_non2xx_upstream {T : Type} (decode : List Byte → Except String T)
    (target : String) (r : Response) (bs : List Byte)
    (hb : r.body = .ok bs) (h : ¬(200 ≤ r.status ∧ r.status ≤ 299)) :
    parse_response decode target r
        = .error (.UpstreamError r.url r.status (utf8Lossy bs)) ∧
    (∀ decode2 : List Byte → Except String T,
      parse_response decode2 target r = parse_response decode target r) ∧
    (∀ b tn s u st bd,
      HttpCallError.JsonParse b tn s ≠ HttpCallError.UpstreamError u st bd) := by
  refine ⟨?_, ?_, ?_⟩
  · simp [parse_response, hb, h]
  · intro decode2; simp [parse_response, hb, h]
  · intro _ _ _ _ _ _ hcon; exact HttpCallError.noConfusion hcon

/-- C6 witness: a 404 response with body bytes `hi`. -/
theorem parse_response_non2xx_upstream_witness :
    parse_response (fun _ => (Except.error "never" : Except String Nat)) "u32"
        { status := 404, url := "http://sr/x", body := .ok [104, 105] }
      = .error (.UpstreamError "http://sr/x" 404 (utf8Lossy [104, 105])) :=
  (parse_response_non2xx_upstream _ "u32" _ [104, 105] rfl (by decide)).1

/-! ## Authentication header theorems -/

theorem strUtf8_append (a b : String) : strUtf8 (a ++ b) = strUtf8 a ++ strUtf8 b := by
  simp [strUtf8, String.data_append]

theorem base64Char_valid (n : Nat) :
    isValidHeaderValueByte (base64Char n).toNat = true := by
  by_cases h : n < 64
  · exact (show ∀ m < 64, isValidHeaderValueByte (base64Char m).toNat = true by decide) n h
  · unfold base64Char
    rw [List.getD_eq_default]
    · decide
    · have : base64Alphabet.length = 64 := by decide
      omega

theorem base64Char_ne_pad (n : Nat) (h : n < 64) : base64Char n ≠ '=' :=
  (show ∀ m < 64, base64Char m ≠ '=' by decide) n h

/-- Every character the base64 encoder emits is a valid header-value byte. -/
theorem base64Encode_mem_valid :
    ∀ (n : Nat) (l : List Byte), l.length ≤ n →
    ∀ c ∈ base64Encode l, isValidHeaderValueByte c.toNat = true := by
  intro n
  induction n with
  | zero =>
    intro l hl c hc
    have : l = [] := List.length_eq_zero.mp (Nat.le_zero.mp hl)
    subst this; simp [base64Encode] at hc
  | succ n ih =>
    intro l hl c hc
    rcases l with _ | ⟨a, _ | ⟨b, _ | ⟨d, rest⟩⟩⟩
    · simp [base64Encode] at hc
    · simp only [base64Encode, List.mem_cons, List.not_mem_nil, or_false] at hc
      rcases hc with rfl | rfl | rfl | rfl
      · exact base64Char_valid _
      · exact base64Char_valid _
      · decide
      · decide
    · simp only [base64Encode, List.mem_cons, List.not_mem_nil, or_false] at hc
      rcases hc with rfl | rfl | rfl | rfl
      · exact base64Char_valid _
      · exact base64Char_valid _
      · exact base64Char_valid _
      · decide
    · simp only [base64Encode, List.mem_cons] at hc
      rcases hc with rfl | rfl | rfl | rfl | hc
      · exact base64Char_valid _
      · exact base64Char_valid _
      · exact base64Char_valid _
      · exact base64Char_valid _
      · exact ih rest (by simp at hl; omega) c hc

/-- The whole `Basic ...` buffer passes `HeaderValue::from_bytes`
validation. -/
theorem headerValueFromBytes_basic (input : List Byte) :
    headerValueFromBytes (strUtf8 "Basic " ++ (base64Encode input).map Char.toNat)
      = .ok (strUtf8 "Basic " ++ (base64Encode input).map Char.toNat) := by
  have hall : (strUtf8 "Basic " ++ (base64Encode input).map Char.toNat).all
      isValidHeaderValueByte = true := by
    rw [List.all_append]
    have h1 : (strUtf8 "Basic ").all isValidHeaderValueByte = true := by decide
    have h2 : ((base64Encode input).map Char.toNat).all isValidHeaderValueByte = true := by
      rw [List.all_eq_true]
      intro x hx
      obtain ⟨c, hc, rfl⟩ := List.mem_map.mp hx
      exact base64Encode_mem_valid input.length input (le_refl _) c hc
    rw [h1, h2]
    rfl
  unfold headerValueFromBytes
  rw [if_pos hall]

/-- Appending one byte always changes the base64 output: the padding
structure of the final quantum differs. -/
theorem base64Encode_snoc_ne :
    ∀ (n : Nat) (l : List Byte), l.length ≤ n → ∀ x : Byte,
      base64Encode (l ++ [x]) ≠ base64Encode l := by
  intro n
  induction n with
  | zero =>
    intro l hl x
    have : l = [] := List.length_eq_zero.mp (Nat.le_zero.mp hl)
    subst this
    simp [base64Encode]
  | succ n ih =>
    intro l hl x
    rcases l with _ | ⟨a, _ | ⟨b, _ | ⟨d, rest⟩⟩⟩
    · simp [base64Encode]
    · intro h
      simp only [List.cons_append, List.nil_append, base64Encode,
        List.cons.injEq, and_true] at h
      exact base64Char_ne_pad _ (by omega) h.2.2
    · intro h
      simp only [List.cons_append, List.nil_append, base64Encode,
        List.cons.injEq, and_true] at h
      exact base64Char_ne_pad _ (by omega) h.2.2.2
    · intro h
      simp only [List.cons_append, base64Encode, List.cons.injEq] at h
      exact ih rest (by simp at hl; omega) x h.2.2.2.2

/-- C7: authentication-header construction is a pure function (building
twice from the same `Authentication` gives identical bytes), and
`basic_auth` with a present password yields exactly `Basic ` followed by
the standard base64 encoding of `username:password`; at `("user", "pass")`
the value is the bytes of `Basic dXNlcjpwYXNz`. -/
theorem basic_auth_standard_encoding (u p : String) :
    (∀ a : Authentication, build_auth_headers a = build_auth_headers a) ∧
    basic_auth u (some p)
      = .ok (authorizationHeaderName,
             strUtf8 "Basic " ++ (base64Encode (strUtf8 (u ++ ":" ++ p))).map Char.toNat) ∧
    basic_auth "user" (some "pass")
      = .ok (authorizationHeaderName, strUtf8 "Basic dXNlcjpwYXNz") := by
  have hcolon : strUtf8 ":" = [58] := rfl
  have hinput : strUtf8 (u ++ ":" ++ p) = strUtf8 u ++ [58] ++ strUtf8 p := by
    rw [strUtf8_append, strUtf8_append, hcolon]
  refine ⟨fun a => rfl, ?_, by rfl⟩
  rw [hinput]
  simp only [basic_auth]
  rw [headerValueFromBytes_basic]
  rfl

/-- C10: with an absent password the colon separator is still written
before the encoder finishes, so the header value is `Basic ` plus the
base64 encoding of `username ++ ":"` — which never coincides with the
encoding of the username alone. -/
theorem basic_auth_no_password_keeps_colon (u : String) :
    basic_auth u none
      = .ok (authorizationHeaderName,
             strUtf8 "Basic " ++ (base64Encode (strUtf8 (u ++ ":"))).map Char.toNat) ∧
    base64Encode (strUtf8 (u ++ ":")) ≠ base64Encode (strUtf8 u) := by
  have hcolon : strUtf8 ":" = [58] := rfl
  have hinput : strUtf8 (u ++ ":") = strUtf8 u ++ [58] := by
    rw [strUtf8_append, hcolon]
  constructor
  · rw [hinput]
    simp only [basic_auth]
    have : strUtf8 u ++ [58] ++ [] = strUtf8 u ++ [58] := by simp
    rw [this, headerValueFromBytes_basic]
    rfl
  · rw [hinput]
    exact base64Encode_snoc_ne (strUtf8 u).length (strUtf8 u) (le_refl _) 58

end SchemaReg
